import Mathlib

/-!
# Verification of `scidbpy.relational` (SciDB-Py `merge`)

A shallow embedding, at the schema level, of `src/scidbpy/relational.py`:
the join-plan construction pipeline (`_apply_suffix`, `_prepare_join_schema`,
`merge`) of the SciDB-Py relational module.

The embedding follows the source file.  Collaborators that the repository
imports from modules not present in the source tree (`schema_utils`,
`robust`, `utils`) are modelled from the specification (section 6 of the
spec) and are marked `Modelled from the spec:` in their doc comments.

An array is modelled by its schema: the ordered list of dimension names and
the ordered list of (attribute name, declared type string) pairs.  By the
spec data model (section 3) every dimension is an integer-valued index axis,
so the model records only a dimension's name.
-/

namespace SciDBPy

/-- An array handle, reduced to its schema: dimension names (integer-valued
index axes per the spec data model) and attributes as (name, type) pairs. -/
structure Arr where
  dims : List String
  atts : List (String × String)
deriving Repr, DecidableEq

/-- `att_names` introspection: the attribute names in order. -/
def attNames (a : Arr) : List String := a.atts.map Prod.fst

/-- The combined dimension+attribute name set of one schema, as the Python
code's `set(x.att_names) | set(x.dim_names)`; a deduplicated list stands in
for the Python set (only membership is ever used). -/
def nameSet (a : Arr) : List String := (attNames a ++ a.dims).dedup

/-- Python set intersection `xs & ys`, as a list. -/
def listInter (xs ys : List String) : List String := xs.filter (fun n => decide (n ∈ ys))

/-! ## Python string primitives

`str.replace` and `str.endswith` are modelled over the character lists of
the strings, matching Python's semantics: `replace` rewrites every
non-overlapping occurrence of the pattern, scanning left to right.
(For an empty pattern the model returns the string unchanged; the suffixes
exercised by the code are nonempty.) -/

/-- All-occurrence replacement over character lists.  The recursion is
structural on a fuel argument so the definition reduces inside the kernel;
every step consumes at least one character, so fuel equal to the string
length is never exhausted. -/
def pyReplaceAux (p : Char) (ps : List Char) (rep : List Char) : Nat → List Char → List Char
  | _, [] => []
  | 0, l => l
  | fuel + 1, c :: rest =>
    if List.isPrefixOf (p :: ps) (c :: rest) then
      rep ++ pyReplaceAux p ps rep fuel (rest.drop ps.length)
    else
      c :: pyReplaceAux p ps rep fuel rest

/-- Python `s.replace(pat, rep)`. -/
def pyReplace (s pat rep : String) : String :=
  match pat.data with
  | [] => s
  | p :: ps => String.mk (pyReplaceAux p ps rep.data s.data.length s.data)

/-- Python `s.endswith(t)`. -/
def pyEndsWith (s t : String) : Bool := List.isSuffixOf t.data s.data

/-- Python `pat in s` (substring containment), used by the source as the
integer-type test `'int' in dt[l]`. -/
def containsSubstr (s pat : String) : Bool := decide (pat.data <:+: s.data)

/-! ## Renaming primitives

Modelled from the spec: `attribute_rename` / `dimension_rename` take pairs
of old/new names and rename simultaneously (section 6); a name not listed is
left unchanged, and a call with no pairs renames nothing. -/

/-- Look a name up in a list of (old, new) rename pairs. -/
def renameIn (pairs : List (String × String)) (n : String) : String :=
  match pairs.find? (fun q => q.1 == n) with
  | some q => q.2
  | none => n

/-- Modelled from the spec: `attribute_rename`, simultaneous renaming of
attributes by (old, new) pairs. -/
def attribute_rename (a : Arr) (pairs : List (String × String)) : Arr :=
  { a with atts := a.atts.map (fun q => (renameIn pairs q.1, q.2)) }

/-- Modelled from the spec: `dimension_rename`, simultaneous renaming of
dimensions by (old, new) pairs. -/
def dimension_rename (a : Arr) (pairs : List (String × String)) : Arr :=
  { a with dims := a.dims.map (renameIn pairs) }

/-! ## Missing collaborators, modelled from the spec -/

/-- Modelled from the spec: `su.to_dimensions(array, *names)`, the
schema-promotion collaborator converting the named attributes into
dimensions (spec sections 4.2 and 6).  Names that are already dimensions
stay dimensions; per the spec data model the promoted axes are
integer-valued, which the model records by membership in `dims`. -/
def to_dimensions (a : Arr) (names : List String) : Arr :=
  { dims := a.dims ++ (a.atts.filter (fun q => decide (q.1 ∈ names))).map Prod.fst,
    atts := a.atts.filter (fun q => decide (q.1 ∉ names)) }

/-- Longest name length in a list, used by the fresh-name allocator model. -/
def maxLen : List String → Nat
  | [] => 0
  | s :: t => max s.data.length (maxLen t)

/-- Modelled from the spec: `_new_attribute_label(hint, array)`, the
unique-name allocator guaranteeing the returned name collides with nothing
in the given array (spec section 6).  The model returns the hint when it is
free and otherwise pads it beyond every existing name's length. -/
def _new_attribute_label (hint : String) (a : Arr) : String :=
  let names := attNames a ++ a.dims
  if hint ∈ names then hint ++ String.mk (List.replicate (maxLen names + 1) '_') else hint

/-- Modelled from the spec: the schema effect of `index_lookup`, which
materializes one new integer surrogate attribute on the array (spec
section 4.2(e)); dimensions and existing attributes are untouched. -/
def index_lookup (a : Arr) (att : String) : Arr :=
  { a with atts := a.atts ++ [(att, "int64")] }

/-- `utils.interleave`: interleave two key lists into
`[l0, r0, l1, r1, ...]` for the cross-join call. -/
def interleave (xs ys : List String) : List String :=
  (xs.zip ys).flatMap (fun q => [q.1, q.2])

/-- Every second element of a list (the right-hand names of an interleaved
(left, right) dimension-pair list). -/
def rightsOf : List String → List String
  | _ :: r :: t => r :: rightsOf t
  | _ => []

/-- Modelled from the spec: the schema of the native join primitive
`cross_join(left, right, *interleaved_dim_name_pairs)` (spec section 6).
Each right-hand joined dimension is equated with its left partner and
omitted from the result; the left dimensions, the remaining right
dimensions and both attribute lists are retained. -/
def cross_join (a b : Arr) (dimArgs : List String) : Arr :=
  let rjoined := rightsOf dimArgs
  { dims := a.dims ++ b.dims.filter (fun d => decide (d ∉ rjoined)),
    atts := a.atts ++ b.atts }

/-- Modelled from the spec: `unpack`, flattening the multi-dimensional
index into a single dense row dimension named `idx`; every former dimension
becomes an integer attribute ahead of the existing attributes (spec
sections 4.3(5) and 6). -/
def unpack (a : Arr) (idx : String) : Arr :=
  { dims := [idx], atts := a.dims.map (fun d => (d, "int64")) ++ a.atts }

/-- Modelled from the spec: `project`, keeping exactly the attributes whose
name is among the given names (spec section 6). -/
def project (a : Arr) (names : List String) : Arr :=
  { a with atts := a.atts.filter (fun q => decide (q.1 ∈ names)) }

/-! ## `_apply_suffix` (relational.py lines 60-89) -/

/-- `_apply_suffix(left, right, left_on, right_on, suffixes)`: fully
disambiguate the two schemas by applying suffixes.  Join keys shared by
name get the left suffix in the left key list and the right suffix in the
right key list (the right-hand test uses `left_on_old`, the pre-suffix left
keys); every name in `lnames & rnames` is renamed with the side's suffix in
both the attribute and the dimension namespace. -/
def _apply_suffix (left right : Arr) (left_on right_on : List String)
    (suffixes : String × String) : Arr × Arr × List String × List String :=
  let lnames := nameSet left
  let rnames := nameSet right
  let left_on_old := left_on
  let left_on1 := left_on.map (fun l => if l ∈ right_on then l ++ suffixes.1 else l)
  let right_on1 := right_on.map (fun r => if r ∈ left_on_old then r ++ suffixes.2 else r)
  let duplicates := listInter lnames rnames
  let relabel := fun (x : Arr) (suffix : String) =>
    let x1 := attribute_rename x
      (duplicates.filterMap (fun d => if d ∈ attNames x then some (d, d ++ suffix) else none))
    dimension_rename x1
      (duplicates.filterMap (fun d => if d ∈ x1.dims then some (d, d ++ suffix) else none))
  (relabel left suffixes.1, relabel right suffixes.2, left_on1, right_on1)

/-! ## `_prepare_join_schema` (relational.py lines 9-58) -/

/-- The skip test of the surrogate loop, line 21 of the source:
`l not in dt or 'int' in dt[l]`, where `dt` is the attribute-name-to-type
map of the original left array.  (When `l` is not a left attribute it is a
left dimension, hence integer-valued in the model.) -/
def skipKey (dt : List (String × String)) (l : String) : Bool :=
  match dt.find? (fun q => q.1 == l) with
  | none => true
  | some q => containsSubstr q.2 "int"

/-- The body of the loop over `zip(left_on, right_on)` (lines 20-51):
non-integer left keys trigger surrogate-index construction, replacing the
key name on both sides with a freshly allocated `<key>_idx` attribute added
by `index_lookup`; integer (or dimensional) left keys are passed through. -/
def prepLoop (dt : List (String × String)) :
    Arr → Arr → List (String × String) → Arr × Arr × List String × List String
  | left, right, [] => (left, right, [], [])
  | left, right, (l, r) :: rest =>
    if skipKey dt l then
      let t := prepLoop dt left right rest
      (t.1, t.2.1, l :: t.2.2.1, r :: t.2.2.2)
    else
      let left_att := _new_attribute_label (l ++ "_idx") left
      let right_att := _new_attribute_label (r ++ "_idx") right
      let left1 := index_lookup left left_att
      let right1 := index_lookup right right_att
      let t := prepLoop dt left1 right1 rest
      (t.1, t.2.1, left_att :: t.2.2.1, right_att :: t.2.2.2)

/-- `_prepare_join_schema(left, right, left_on, right_on)`: build surrogate
integer keys for non-integer join attributes, then promote every join key
into a dimension with `to_dimensions`.  Positions beyond `zip`'s reach
(never exercised by `merge`, whose key lists have equal length) keep their
original names, as `new_left = list(left_on)` does in the source. -/
def _prepare_join_schema (left right : Arr) (left_on right_on : List String) :
    Arr × Arr × List String × List String :=
  let dt := left.atts
  let pairs := left_on.zip right_on
  let t := prepLoop dt left right pairs
  let new_left := t.2.2.1 ++ left_on.drop pairs.length
  let new_right := t.2.2.2 ++ right_on.drop pairs.length
  (to_dimensions t.1 new_left, to_dimensions t.2.1 new_right, new_left, new_right)

/-! ## `merge` (relational.py lines 92-238) -/

/-- The two error classes `merge` raises: `NotImplementedError` for a
non-inner join, `ValueError` for a conflicting or incomplete key
specification. -/
inductive MErr where
  | notImplementedError (msg : String)
  | valueError (msg : String)
deriving Repr, DecidableEq

/-- Observable collaborator operations of one `merge` call, in program
order: the `att_names` / `dim_names` schema introspection of lines 171-172
(with `True` marking the left array), and the engine-facing pipeline stages
entered after validation succeeds. -/
inductive MOp where
  | readAttNames (leftSide : Bool)
  | readDimNames (leftSide : Bool)
  | stage (name : String)
deriving Repr, DecidableEq

/-- The schema introspection performed by lines 171-172 of the source,
before any validation check runs. -/
def introspectOps : List MOp :=
  [.readAttNames true, .readDimNames true, .readAttNames false, .readDimNames false]

/-- The engine-facing pipeline stages of a successful `merge`, in source
order (lines 205-237). -/
def pipelineOps : List MOp :=
  [.stage "apply_suffix", .stage "prepare_join_schema", .stage "cross_join",
   .stage "unpack", .stage "project", .stage "attribute_rename"]

/-- `keep` (lines 209-211): the union of post-disambiguation
dimension+attribute names of both sides minus the (post-disambiguation)
right join-key names. -/
def mergeKeep (left2 right2 : Arr) (right_on2 : List String) : List String :=
  ((nameSet left2 ++ nameSet right2).dedup).filter (fun n => decide (n ∉ right_on2))

/-- The trigger of the suffix cleanup (lines 231-234): the name ends in the
left suffix and its all-occurrence right-suffix replacement (Python
`a.replace(suffixes[0], suffixes[1])`) is absent from the attributes. -/
def cleanupHits (a : Arr) (suffixes : String × String) (n : String) : Bool :=
  pyEndsWith n suffixes.1 && !decide (pyReplace n suffixes.1 suffixes.2 ∈ attNames a)

/-- The suffix-cleanup rename pairs of lines 229-235: every attribute name
triggering `cleanupHits` is renamed to its all-occurrence deletion
(Python `a.replace(suffixes[0], '')`). -/
def dropSuffixRenames (a : Arr) (suffixes : String × String) : List (String × String) :=
  (attNames a).filterMap (fun n =>
    if cleanupHits a suffixes n then
      some (n, pyReplace n suffixes.1 "")
    else none)

/-- The suffix-cleanup stage (lines 228-237) as one schema transform. -/
def drop_suffixes (a : Arr) (suffixes : String × String) : Arr :=
  attribute_rename a (dropSuffixRenames a suffixes)

/-- The pipeline of a validated `merge` up to and including the `project`
call (lines 202-225): disambiguate, compute `keep`, materialize keys,
cross-join, unpack into a dense row dimension, and project to `keep`. -/
def mergeProjected (left right : Arr) (left_on right_on : List String)
    (suffixes : String × String) : Arr :=
  let t := _apply_suffix left right left_on right_on suffixes
  let keep := mergeKeep t.1 t.2.1 t.2.2.2
  let p := _prepare_join_schema t.1 t.2.1 t.2.2.1 t.2.2.2
  let result := cross_join p.1 p.2.1 (interleave p.2.2.1 p.2.2.2)
  let idx := _new_attribute_label "_row" result
  let result1 := unpack result idx
  project result1 keep

/-- The full post-validation pipeline of `merge` (lines 202-238): the
projected result with the final suffix cleanup applied. -/
def mergePipeline (left right : Arr) (left_on right_on : List String)
    (suffixes : String × String) : Arr :=
  drop_suffixes (mergeProjected left right left_on right_on suffixes) suffixes

/-- The join-key membership validation of lines 195-200 followed by the
pipeline: the first left key absent from `lnames` (then the first right key
absent from `rnames`) raises `ValueError`; otherwise the pipeline runs. -/
def mergeChecked (left right : Arr) (left_on right_on : List String)
    (suffixes : String × String) : Except MErr Arr × List MOp :=
  match left_on.find? (fun l => !decide (l ∈ nameSet left)) with
  | some l => (.error (.valueError ("Left array join name is invalid: " ++ l)), introspectOps)
  | none =>
    match right_on.find? (fun r => !decide (r ∈ nameSet right)) with
    | some r => (.error (.valueError ("Right array join name is invalid: " ++ r)), introspectOps)
    | none => (.ok (mergePipeline left right left_on right_on suffixes),
               introspectOps ++ pipelineOps)

/-- `merge(left, right, on, left_on, right_on, how, suffixes)`, lines
92-238 of the source, with the collaborator operations it performs recorded
in program order.  `on`, `left_on`, `right_on` are optional name lists
(`as_list` wraps a single string into a one-element list at the Python
boundary); per Python truthiness, `on=None` and `on=[]` both fall back to
the intersection of the two sides' combined name sets. -/
def merge (left right : Arr) (onKeys left_on right_on : Option (List String))
    (how : String) (suffixes : String × String) : Except MErr Arr × List MOp :=
  let lnames := nameSet left
  let rnames := nameSet right
  if how ≠ "inner" then
    (.error (.notImplementedError "Only inner joins are supported for now."), introspectOps)
  else if (left_on.isSome || right_on.isSome) && onKeys.isSome then
    (.error (.valueError "Cannot specify left_on/right_on with on"), introspectOps)
  else if left_on.isSome || right_on.isSome then
    match left_on, right_on with
    | some lo, some ro =>
      if lo.length ≠ ro.length then
        (.error (.valueError "left_on and right_on must have the same number of items"),
         introspectOps)
      else mergeChecked left right lo ro suffixes
    | _, _ => (.error (.valueError "Must specify both left_on and right_on"), introspectOps)
  else
    let o := match onKeys with
      | none => listInter lnames rnames
      | some [] => listInter lnames rnames
      | some l => l
    mergeChecked left right o o suffixes

/-! ## Basic lemmas -/

theorem data_append (a b : String) : (a ++ b).data = a.data ++ b.data := by
  cases a; cases b; rfl

theorem maxLen_le {s : String} {names : List String} (h : s ∈ names) :
    s.data.length ≤ maxLen names := by
  induction names with
  | nil => cases h
  | cons t rest ih =>
    rcases List.mem_cons.mp h with rfl | hm
    · exact Nat.le_max_left _ _
    · exact Nat.le_trans (ih hm) (Nat.le_max_right _ _)

/-- The fresh-name allocator meets its contract: the returned label names
nothing in the array. -/
theorem new_attribute_label_not_mem (hint : String) (a : Arr) :
    _new_attribute_label hint a ∉ attNames a ++ a.dims := by
  unfold _new_attribute_label
  by_cases h : hint ∈ attNames a ++ a.dims
  · rw [if_pos h]
    intro hmem
    have hlen := maxLen_le hmem
    rw [data_append, List.length_append] at hlen
    have hr : (String.mk (List.replicate (maxLen (attNames a ++ a.dims) + 1) '_')).data.length
        = maxLen (attNames a ++ a.dims) + 1 := by
      simp
    omega
  · rw [if_neg h]; exact h

theorem new_attribute_label_length (hint : String) (a : Arr) :
    hint.data.length ≤ (_new_attribute_label hint a).data.length := by
  unfold _new_attribute_label
  by_cases h : hint ∈ attNames a ++ a.dims
  · rw [if_pos h, data_append, List.length_append]
    omega
  · rw [if_neg h]

/-- A label allocated from a strictly longer hint differs from the
original name. -/
theorem new_attribute_label_idx_ne (l hint : String) (a : Arr)
    (h : l.data.length < hint.data.length) :
    _new_attribute_label hint a ≠ l := by
  intro heq
  have := new_attribute_label_length hint a
  rw [heq] at this
  omega

theorem renameIn_nil (n : String) : renameIn [] n = n := rfl

theorem attribute_rename_nil (a : Arr) : attribute_rename a [] = a := by
  simp [attribute_rename, renameIn]

theorem dimension_rename_nil (a : Arr) : dimension_rename a [] = a := by
  have h : renameIn ([] : List (String × String)) = id := funext fun n => rfl
  simp [dimension_rename, h]

theorem attNames_attribute_rename (a : Arr) (ps : List (String × String)) :
    attNames (attribute_rename a ps) = (attNames a).map (renameIn ps) := by
  simp [attNames, attribute_rename, List.map_map, Function.comp]

theorem mem_nameSet {a : Arr} {n : String} :
    n ∈ nameSet a ↔ n ∈ attNames a ∨ n ∈ a.dims := by
  simp [nameSet, List.mem_dedup, List.mem_append]

/-! ## Lemmas about the Key Materializer loop -/

theorem attNames_index_lookup (a : Arr) (att : String) :
    attNames (index_lookup a att) = attNames a ++ [att] := by
  simp [attNames, index_lookup]

theorem nameSet_index_lookup_mono {a : Arr} {n : String} (att : String)
    (h : n ∈ nameSet a) : n ∈ nameSet (index_lookup a att) := by
  rw [mem_nameSet] at h ⊢
  rcases h with h | h
  · left; rw [attNames_index_lookup]; exact List.mem_append_left _ h
  · right; exact h

theorem prepLoop_nameSet_mono_left (dt : List (String × String)) (L R : Arr)
    (ps : List (String × String)) {n : String} (h : n ∈ nameSet L) :
    n ∈ nameSet (prepLoop dt L R ps).1 := by
  induction ps generalizing L R with
  | nil => exact h
  | cons p rest ih =>
    obtain ⟨l, r⟩ := p
    by_cases hs : skipKey dt l
    · simpa [prepLoop, hs] using ih L R h
    · simpa [prepLoop, hs] using
        ih _ _ (nameSet_index_lookup_mono _ h)

theorem prepLoop_nameSet_mono_right (dt : List (String × String)) (L R : Arr)
    (ps : List (String × String)) {n : String} (h : n ∈ nameSet R) :
    n ∈ nameSet (prepLoop dt L R ps).2.1 := by
  induction ps generalizing L R with
  | nil => exact h
  | cons p rest ih =>
    obtain ⟨l, r⟩ := p
    by_cases hs : skipKey dt l
    · simpa [prepLoop, hs] using ih L R h
    · simpa [prepLoop, hs] using
        ih _ _ (nameSet_index_lookup_mono _ h)

theorem prepLoop_keys_len (dt : List (String × String)) (L R : Arr)
    (ps : List (String × String)) :
    (prepLoop dt L R ps).2.2.1.length = ps.length ∧
    (prepLoop dt L R ps).2.2.2.length = ps.length := by
  induction ps generalizing L R with
  | nil => simp [prepLoop]
  | cons p rest ih =>
    obtain ⟨l, r⟩ := p
    by_cases hs : skipKey dt l
    · simp [prepLoop, hs, (ih L R).1, (ih L R).2]
    · simp [prepLoop, hs, (ih _ _).1, (ih _ _).2]

theorem prepLoop_left_keys_mem (dt : List (String × String)) (L R : Arr)
    (ps : List (String × String)) (h : ∀ p ∈ ps, p.1 ∈ nameSet L) :
    ∀ n ∈ (prepLoop dt L R ps).2.2.1, n ∈ nameSet (prepLoop dt L R ps).1 := by
  induction ps generalizing L R with
  | nil => intro n hn; simp [prepLoop] at hn
  | cons p rest ih =>
    obtain ⟨l, r⟩ := p
    intro n hn
    by_cases hs : skipKey dt l
    · simp only [prepLoop, hs, if_true] at hn ⊢
      rcases List.mem_cons.mp hn with rfl | hn
      · exact prepLoop_nameSet_mono_left dt L R rest (h (n, r) (List.mem_cons_self _ _))
      · exact ih L R (fun p hp => h p (List.mem_cons_of_mem _ hp)) n hn
    · simp only [prepLoop, hs, if_false, Bool.false_eq_true] at hn ⊢
      rcases List.mem_cons.mp hn with rfl | hn
      · apply prepLoop_nameSet_mono_left
        rw [mem_nameSet]
        left
        rw [attNames_index_lookup]
        simp
      · exact ih _ _
          (fun p hp => nameSet_index_lookup_mono _ (h p (List.mem_cons_of_mem _ hp))) n hn

theorem prepLoop_right_keys_mem (dt : List (String × String)) (L R : Arr)
    (ps : List (String × String)) (h : ∀ p ∈ ps, p.2 ∈ nameSet R) :
    ∀ n ∈ (prepLoop dt L R ps).2.2.2, n ∈ nameSet (prepLoop dt L R ps).2.1 := by
  induction ps generalizing L R with
  | nil => intro n hn; simp [prepLoop] at hn
  | cons p rest ih =>
    obtain ⟨l, r⟩ := p
    intro n hn
    by_cases hs : skipKey dt l
    · simp only [prepLoop, hs, if_true] at hn ⊢
      rcases List.mem_cons.mp hn with rfl | hn
      · exact prepLoop_nameSet_mono_right dt L R rest (h (l, n) (List.mem_cons_self _ _))
      · exact ih L R (fun p hp => h p (List.mem_cons_of_mem _ hp)) n hn
    · simp only [prepLoop, hs, if_false, Bool.false_eq_true] at hn ⊢
      rcases List.mem_cons.mp hn with rfl | hn
      · apply prepLoop_nameSet_mono_right
        rw [mem_nameSet]
        left
        rw [attNames_index_lookup]
        simp
      · exact ih _ _
          (fun p hp => nameSet_index_lookup_mono _ (h p (List.mem_cons_of_mem _ hp))) n hn

theorem prepLoop_right_keys_src (dt : List (String × String)) (L R : Arr)
    (ps : List (String × String)) :
    ∀ n ∈ (prepLoop dt L R ps).2.2.2, n ∈ ps.map Prod.snd ∨ n ∉ nameSet R := by
  induction ps generalizing L R with
  | nil => intro n hn; simp [prepLoop] at hn
  | cons p rest ih =>
    obtain ⟨l, r⟩ := p
    intro n hn
    by_cases hs : skipKey dt l
    · simp only [prepLoop, hs, if_true] at hn
      rcases List.mem_cons.mp hn with rfl | hn
      · left; simp
      · rcases ih L R n hn with h | h
        · left; simp [h]
        · right; exact h
    · simp only [prepLoop, hs, if_false, Bool.false_eq_true] at hn
      rcases List.mem_cons.mp hn with rfl | hn
      · right
        intro hmem
        have := new_attribute_label_not_mem (r ++ "_idx") R
        rw [mem_nameSet] at hmem
        rcases hmem with h | h
        · exact this (List.mem_append_left _ h)
        · exact this (List.mem_append_right _ h)
      · rcases ih _ _ n hn with h | h
        · left; simp [h]
        · right
          intro hmem
          exact h (nameSet_index_lookup_mono _ hmem)


theorem nameSet_to_dimensions {a : Arr} {names : List String} {n : String} :
    n ∈ nameSet (to_dimensions a names) ↔ n ∈ nameSet a := by
  simp only [mem_nameSet, to_dimensions, attNames, List.mem_map, List.mem_append,
    List.mem_filter]
  constructor
  · rintro (⟨q, ⟨hq, _⟩, rfl⟩ | (h | ⟨q, ⟨hq, _⟩, rfl⟩))
    · exact Or.inl ⟨q, hq, rfl⟩
    · exact Or.inr h
    · exact Or.inl ⟨q, hq, rfl⟩
  · rintro (⟨q, hq, rfl⟩ | h)
    · by_cases hin : q.1 ∈ names
      · exact Or.inr (Or.inr ⟨q, ⟨hq, by simp [hin]⟩, rfl⟩)
      · exact Or.inl ⟨q, ⟨hq, by simp [hin]⟩, rfl⟩
    · exact Or.inr (Or.inl h)

theorem to_dimensions_key_dim {a : Arr} {names : List String} {n : String}
    (h1 : n ∈ names) (h2 : n ∈ nameSet a) : n ∈ (to_dimensions a names).dims := by
  rw [mem_nameSet] at h2
  simp only [to_dimensions, List.mem_append]
  rcases h2 with h | h
  · right
    simp only [attNames, List.mem_map] at h
    obtain ⟨q, hq, rfl⟩ := h
    exact List.mem_map.mpr ⟨q, List.mem_filter.mpr ⟨hq, by simp [h1]⟩, rfl⟩
  · exact Or.inl h

theorem prepare_join_schema_eq (left right : Arr) (lo ro : List String)
    (h : lo.length = ro.length) :
    _prepare_join_schema left right lo ro =
      ((to_dimensions (prepLoop left.atts left right (lo.zip ro)).1
          (prepLoop left.atts left right (lo.zip ro)).2.2.1),
       (to_dimensions (prepLoop left.atts left right (lo.zip ro)).2.1
          (prepLoop left.atts left right (lo.zip ro)).2.2.2),
       (prepLoop left.atts left right (lo.zip ro)).2.2.1,
       (prepLoop left.atts left right (lo.zip ro)).2.2.2) := by
  have d1 : List.drop (lo.length ⊓ ro.length) lo = [] := by
    rw [h, Nat.min_self, ← h, List.drop_length]
  have d2 : List.drop (lo.length ⊓ ro.length) ro = [] := by
    rw [h, Nat.min_self, List.drop_length]
  simp [_prepare_join_schema, List.length_zip, d1, d2]

theorem prepLoop_keys_get (dt : List (String × String)) (L R : Arr)
    (ps : List (String × String)) (i : Nat) (l r : String)
    (hp : ps[i]? = some (l, r)) :
    (skipKey dt l = true →
      (prepLoop dt L R ps).2.2.1[i]? = some l ∧ (prepLoop dt L R ps).2.2.2[i]? = some r) ∧
    (skipKey dt l = false →
      (∃ la, (prepLoop dt L R ps).2.2.1[i]? = some la ∧ la ≠ l) ∧
      (∃ ra, (prepLoop dt L R ps).2.2.2[i]? = some ra ∧ ra ≠ r)) := by
  induction ps generalizing L R i with
  | nil => simp at hp
  | cons p rest ih =>
    obtain ⟨l0, r0⟩ := p
    cases i with
    | zero =>
      simp only [List.getElem?_cons_zero, Option.some.injEq, Prod.mk.injEq] at hp
      obtain ⟨rfl, rfl⟩ := hp
      constructor
      · intro hs
        simp [prepLoop, hs]
      · intro hs
        have hlen : l0.data.length < (l0 ++ "_idx").data.length := by
          rw [data_append, List.length_append]
          simp
        have hrlen : r0.data.length < (r0 ++ "_idx").data.length := by
          rw [data_append, List.length_append]
          simp
        refine ⟨⟨_new_attribute_label (l0 ++ "_idx") L, ?_,
                 new_attribute_label_idx_ne _ _ _ hlen⟩,
                ⟨_new_attribute_label (r0 ++ "_idx") R, ?_,
                 new_attribute_label_idx_ne _ _ _ hrlen⟩⟩ <;>
          simp [prepLoop, hs]
    | succ j =>
      simp only [List.getElem?_cons_succ] at hp
      by_cases hs : skipKey dt l0
      · have := ih L R j hp
        simpa [prepLoop, hs] using this
      · have := ih (index_lookup L (_new_attribute_label (l0 ++ "_idx") L))
          (index_lookup R (_new_attribute_label (r0 ++ "_idx") R)) j hp
        simpa [prepLoop, hs] using this

/-! ## Claim theorems for the Disambiguator and Key Materializer -/

/-- C5: in the Schema Disambiguator, a key name appearing as a join key on
both sides under the same literal name is suffixed with the left suffix in
the left key list and the right suffix in the right key list, and the right
side's collision test runs against the pre-suffix left key names, so a left
key renamed by this same step never causes a spurious right-side suffix. -/
theorem apply_suffix_shared_key_collision (left right : Arr) (lo ro : List String)
    (s : String × String) :
    (∀ (i : Nat) (k : String), lo[i]? = some k → k ∈ ro →
      ((_apply_suffix left right lo ro s).2.2.1)[i]? = some (k ++ s.1)) ∧
    (∀ (i : Nat) (k : String), ro[i]? = some k → k ∈ lo →
      ((_apply_suffix left right lo ro s).2.2.2)[i]? = some (k ++ s.2)) ∧
    (∀ (i : Nat) (k : String), ro[i]? = some k → k ∉ lo →
      ((_apply_suffix left right lo ro s).2.2.2)[i]? = some k) := by
  refine ⟨?_, ?_, ?_⟩ <;> intro i k hk hmem <;>
    simp [_apply_suffix, List.getElem?_map, hk, hmem]

/-- Witness for C5: the shared key `a` is suffixed on both sides, and the
right key `a_x` — which collides only with the just-suffixed left key
`a_x`, not with any pre-suffix left key — is left untouched. -/
theorem apply_suffix_shared_key_collision_witness :
    (((["a"] : List String)[0]? = some "a" ∧ "a" ∈ (["a", "a_x"] : List String)) ∧
      ((_apply_suffix ⟨["i"], [("a", "int64")]⟩ ⟨["j"], [("a", "int64"), ("a_x", "double")]⟩
          ["a"] ["a", "a_x"] ("_x", "_y")).2.2.1)[0]? = some "a_x") ∧
    (((["a", "a_x"] : List String)[1]? = some "a_x" ∧ "a_x" ∉ (["a"] : List String)) ∧
      ((_apply_suffix ⟨["i"], [("a", "int64")]⟩ ⟨["j"], [("a", "int64"), ("a_x", "double")]⟩
          ["a"] ["a", "a_x"] ("_x", "_y")).2.2.2)[1]? = some "a_x") :=
  ⟨⟨⟨by decide, by decide⟩,
    (apply_suffix_shared_key_collision ⟨["i"], [("a", "int64")]⟩
      ⟨["j"], [("a", "int64"), ("a_x", "double")]⟩ ["a"] ["a", "a_x"] ("_x", "_y")).1
      0 "a" (by decide) (by decide)⟩,
   ⟨⟨by decide, by decide⟩,
    (apply_suffix_shared_key_collision ⟨["i"], [("a", "int64")]⟩
      ⟨["j"], [("a", "int64"), ("a_x", "double")]⟩ ["a"] ["a", "a_x"] ("_x", "_y")).2.2
      1 "a_x" (by decide) (by decide)⟩⟩

/-- C9: the Schema Disambiguator is idempotent: on arrays and key lists
with no remaining cross-side name collisions (and keys drawn from their own
side's names, as any pair it has itself produced from valid inputs is),
`_apply_suffix` renames nothing and returns its inputs unchanged. -/
theorem apply_suffix_idempotent (L R : Arr) (lo ro : List String) (s : String × String)
    (h1 : listInter (nameSet L) (nameSet R) = [])
    (h2 : ∀ l ∈ lo, l ∈ nameSet L) (h3 : ∀ r ∈ ro, r ∈ nameSet R) :
    _apply_suffix L R lo ro s = (L, R, lo, ro) := by
  have hdisj : ∀ n, n ∈ nameSet L → n ∈ nameSet R → False := by
    intro n hL hR
    have hmem : n ∈ listInter (nameSet L) (nameSet R) := by
      simp [listInter, hL, hR]
    simp [h1] at hmem
  have hkeyL : lo.map (fun l => if l ∈ ro then l ++ s.1 else l) = lo := by
    conv_rhs => rw [← List.map_id lo]
    apply List.map_congr_left
    intro l hl
    have hno : l ∉ ro := fun hro => hdisj l (h2 l hl) (h3 l hro)
    simp [hno]
  have hkeyR : ro.map (fun r => if r ∈ lo then r ++ s.2 else r) = ro := by
    conv_rhs => rw [← List.map_id ro]
    apply List.map_congr_left
    intro r hr
    have hno : r ∉ lo := fun hlo => hdisj r (h2 r hlo) (h3 r hr)
    simp [hno]
  simp only [_apply_suffix, h1, List.filterMap_nil, attribute_rename_nil,
    dimension_rename_nil, hkeyL, hkeyR]

/-- Witness for C9 on an already-disambiguated pair. -/
theorem apply_suffix_idempotent_witness :
    (listInter (nameSet ⟨["i"], [("a_x", "int64")]⟩) (nameSet ⟨["j"], [("a_y", "int64")]⟩) = [] ∧
      (∀ l ∈ (["a_x"] : List String), l ∈ nameSet ⟨["i"], [("a_x", "int64")]⟩) ∧
      (∀ r ∈ (["a_y"] : List String), r ∈ nameSet ⟨["j"], [("a_y", "int64")]⟩)) ∧
    _apply_suffix ⟨["i"], [("a_x", "int64")]⟩ ⟨["j"], [("a_y", "int64")]⟩
        ["a_x"] ["a_y"] ("_x", "_y") =
      (⟨["i"], [("a_x", "int64")]⟩, ⟨["j"], [("a_y", "int64")]⟩, ["a_x"], ["a_y"]) :=
  ⟨⟨by decide, by decide, by decide⟩,
   apply_suffix_idempotent ⟨["i"], [("a_x", "int64")]⟩ ⟨["j"], [("a_y", "int64")]⟩
     ["a_x"] ["a_y"] ("_x", "_y") (by decide) (by decide) (by decide)⟩

/-- C6: after the Key Materializer returns, the two returned join-key lists
have equal length (positionally aligned) and every returned key name is a
dimension of the corresponding returned array; in this model a dimension is
an integer-valued index axis by the spec data model, so membership in
`dims` is integer-typedness. -/
theorem prepare_join_schema_keys_dimensions (left right : Arr)
    (lo ro : List String) (hlen : lo.length = ro.length)
    (hl : ∀ l ∈ lo, l ∈ nameSet left) (hr : ∀ r ∈ ro, r ∈ nameSet right) :
    (_prepare_join_schema left right lo ro).2.2.1.length =
      (_prepare_join_schema left right lo ro).2.2.2.length ∧
    (∀ n ∈ (_prepare_join_schema left right lo ro).2.2.1,
      n ∈ (_prepare_join_schema left right lo ro).1.dims) ∧
    (∀ n ∈ (_prepare_join_schema left right lo ro).2.2.2,
      n ∈ (_prepare_join_schema left right lo ro).2.1.dims) := by
  rw [prepare_join_schema_eq left right lo ro hlen]
  have hkl := prepLoop_keys_len left.atts left right (lo.zip ro)
  refine ⟨by rw [hkl.1, hkl.2], ?_, ?_⟩
  · intro n hn
    refine to_dimensions_key_dim hn ?_
    refine prepLoop_left_keys_mem left.atts left right (lo.zip ro) ?_ n hn
    intro p hp
    obtain ⟨a, b⟩ := p
    exact hl a (List.of_mem_zip hp).1
  · intro n hn
    refine to_dimensions_key_dim hn ?_
    refine prepLoop_right_keys_mem left.atts left right (lo.zip ro) ?_ n hn
    intro p hp
    obtain ⟨a, b⟩ := p
    exact hr b (List.of_mem_zip hp).2

/-- Witness for C6: a string key forces a surrogate, which ends up a
dimension of the rewritten left array. -/
theorem prepare_join_schema_keys_dimensions_witness :
    ((["k"] : List String).length = (["k2"] : List String).length ∧
      (∀ l ∈ (["k"] : List String), l ∈ nameSet ⟨["i"], [("k", "string"), ("v", "double")]⟩) ∧
      (∀ r ∈ (["k2"] : List String), r ∈ nameSet ⟨["j"], [("k2", "string")]⟩)) ∧
    (∀ n ∈ (_prepare_join_schema ⟨["i"], [("k", "string"), ("v", "double")]⟩
        ⟨["j"], [("k2", "string")]⟩ ["k"] ["k2"]).2.2.1,
      n ∈ (_prepare_join_schema ⟨["i"], [("k", "string"), ("v", "double")]⟩
        ⟨["j"], [("k2", "string")]⟩ ["k"] ["k2"]).1.dims) :=
  ⟨⟨by decide, by decide, by decide⟩,
   (prepare_join_schema_keys_dimensions ⟨["i"], [("k", "string"), ("v", "double")]⟩
     ⟨["j"], [("k2", "string")]⟩ ["k"] ["k2"] (by decide) (by decide) (by decide)).2.1⟩

/-- C7: in the Key Materializer, position `i`'s key pair is passed through
unchanged exactly when the left key's declared type is integer (the skip
test `l not in dt or 'int' in dt[l]`; a non-attribute left key is a
dimension, integer-valued in the model); otherwise a surrogate is built and
both positions are replaced by the fresh surrogate attribute names. -/
theorem prepare_join_schema_surrogate_exactly_noninteger (left right : Arr)
    (lo ro : List String) (hlen : lo.length = ro.length) (i : Nat) (l r : String)
    (hl : lo[i]? = some l) (hr : ro[i]? = some r) :
    (skipKey left.atts l = true →
      (_prepare_join_schema left right lo ro).2.2.1[i]? = some l ∧
      (_prepare_join_schema left right lo ro).2.2.2[i]? = some r) ∧
    (skipKey left.atts l = false →
      (∃ la, (_prepare_join_schema left right lo ro).2.2.1[i]? = some la ∧ la ≠ l) ∧
      (∃ ra, (_prepare_join_schema left right lo ro).2.2.2[i]? = some ra ∧ ra ≠ r)) := by
  rw [prepare_join_schema_eq left right lo ro hlen]
  refine prepLoop_keys_get left.atts left right (lo.zip ro) i l r ?_
  rw [List.getElem?_zip_eq_some]
  exact ⟨hl, hr⟩

/-- Witness for C7: the non-integer key pair (k, k2) is replaced by fresh
surrogate names on both sides. -/
theorem prepare_join_schema_surrogate_exactly_noninteger_witness :
    ((["k", "m"] : List String).length = (["k2", "m2"] : List String).length ∧
      (["k", "m"] : List String)[0]? = some "k" ∧ (["k2", "m2"] : List String)[0]? = some "k2" ∧
      skipKey (Arr.mk ["i"] [("k", "string"), ("m", "int64")]).atts "k" = false) ∧
    ((∃ la, (_prepare_join_schema ⟨["i"], [("k", "string"), ("m", "int64")]⟩
        ⟨["j"], [("k2", "string"), ("m2", "int64")]⟩ ["k", "m"] ["k2", "m2"]).2.2.1[0]? =
          some la ∧ la ≠ "k") ∧
     (∃ ra, (_prepare_join_schema ⟨["i"], [("k", "string"), ("m", "int64")]⟩
        ⟨["j"], [("k2", "string"), ("m2", "int64")]⟩ ["k", "m"] ["k2", "m2"]).2.2.2[0]? =
          some ra ∧ ra ≠ "k2")) :=
  ⟨⟨by decide, by decide, by decide, by decide⟩,
   (prepare_join_schema_surrogate_exactly_noninteger
     ⟨["i"], [("k", "string"), ("m", "int64")]⟩ ⟨["j"], [("k2", "string"), ("m2", "int64")]⟩
     ["k", "m"] ["k2", "m2"] (by decide) 0 "k" "k2" (by decide) (by decide)).2 (by decide)⟩

/-! ## Validation layer: result classification and key-specification predicate -/

/-- Does a `merge` outcome carry the Invalid-Argument (`ValueError`) class? -/
def isInvalidArgumentResult : Except MErr Arr × List MOp → Bool
  | (.error (.valueError _), _) => true
  | _ => false

/-- The resolved key lists of a `merge` call: the supplied `left_on` /
`right_on` when both are present, otherwise the `on` list, defaulting (for
`on` absent or empty, both falsy in Python) to the intersection of the two
sides' combined name sets. -/
def resolvedKeys (left right : Arr) (onKeys lo ro : Option (List String)) :
    List String × List String :=
  match lo, ro with
  | some a, some b => (a, b)
  | _, _ =>
    let o := match onKeys with
      | none => listInter (nameSet left) (nameSet right)
      | some [] => listInter (nameSet left) (nameSet right)
      | some l => l
    (o, o)

/-- The claim C4 condition: the key specification is conflicting or
incomplete — `on` together with `left_on`/`right_on`; only one of
`left_on`/`right_on`; unequal lengths; or a resolved key name absent from
its side's combined dimension+attribute name set. -/
def badKeySpec (left right : Arr) (onKeys lo ro : Option (List String)) : Bool :=
  ((lo.isSome || ro.isSome) && onKeys.isSome)
  || (decide (lo.isSome ≠ ro.isSome))
  || (match lo, ro with
      | some a, some b => decide (a.length ≠ b.length)
      | _, _ => false)
  || (resolvedKeys left right onKeys lo ro).1.any (fun k => !decide (k ∈ nameSet left))
  || (resolvedKeys left right onKeys lo ro).2.any (fun k => !decide (k ∈ nameSet right))

theorem mergeChecked_invalid_iff (left right : Arr) (lo ro : List String)
    (s : String × String) :
    isInvalidArgumentResult (mergeChecked left right lo ro s) =
      (lo.any (fun k => !decide (k ∈ nameSet left)) ||
       ro.any (fun k => !decide (k ∈ nameSet right))) := by
  unfold mergeChecked
  cases hf : lo.find? (fun l => !decide (l ∈ nameSet left)) with
  | some l =>
    have hl : l ∈ lo := List.mem_of_find?_eq_some hf
    have hp := List.find?_some hf
    have ha : lo.any (fun k => !decide (k ∈ nameSet left)) = true :=
      List.any_eq_true.mpr ⟨l, hl, hp⟩
    rw [ha]
    simp [isInvalidArgumentResult]
  | none =>
    have hall : lo.any (fun k => !decide (k ∈ nameSet left)) = false := by
      rw [List.any_eq_false]
      intro k hk
      have := List.find?_eq_none.mp hf k hk
      simpa using this
    cases hg : ro.find? (fun r => !decide (r ∈ nameSet right)) with
    | some r =>
      have hr : r ∈ ro := List.mem_of_find?_eq_some hg
      have hp := List.find?_some hg
      have ha : ro.any (fun k => !decide (k ∈ nameSet right)) = true :=
        List.any_eq_true.mpr ⟨r, hr, hp⟩
      rw [hall, ha]
      simp [isInvalidArgumentResult]
    | none =>
      have hallr : ro.any (fun k => !decide (k ∈ nameSet right)) = false := by
        rw [List.any_eq_false]
        intro k hk
        have := List.find?_eq_none.mp hg k hk
        simpa using this
      rw [hall, hallr]
      simp [isInvalidArgumentResult]

theorem mergeChecked_cases (left right : Arr) (lo ro : List String) (s : String × String) :
    (mergeChecked left right lo ro s).2 = introspectOps ∨
    mergeChecked left right lo ro s =
      (.ok (mergePipeline left right lo ro s), introspectOps ++ pipelineOps) := by
  unfold mergeChecked
  cases hf : lo.find? (fun l => !decide (l ∈ nameSet left)) with
  | some l => left; rfl
  | none =>
    cases hg : ro.find? (fun r => !decide (r ∈ nameSet right)) with
    | some r => left; rfl
    | none => right; rfl

theorem mergeChecked_invalid_trace (left right : Arr) (lo ro : List String)
    (s : String × String)
    (h : isInvalidArgumentResult (mergeChecked left right lo ro s) = true) :
    (mergeChecked left right lo ro s).2 = introspectOps := by
  rcases mergeChecked_cases left right lo ro s with ht | hok
  · exact ht
  · rw [hok] at h
    simp [isInvalidArgumentResult] at h

/-! ## Claim theorems for the validation layer of `merge` -/

/-- C4: with `how = 'inner'`, `merge` fails with the Invalid-Argument error
class exactly when the key specification is conflicting or incomplete (`on`
with `left_on`/`right_on`; only one of `left_on`/`right_on`; unequal key
list lengths; a resolved key name absent from its side's combined name
set), and any such failure happens with only the line-171/172 schema reads
performed — before any pipeline step. -/
theorem merge_invalid_argument_iff (left right : Arr)
    (onKeys lo ro : Option (List String)) (s : String × String) :
    (isInvalidArgumentResult (merge left right onKeys lo ro "inner" s) = true ↔
      badKeySpec left right onKeys lo ro = true) ∧
    (isInvalidArgumentResult (merge left right onKeys lo ro "inner" s) = true →
      (merge left right onKeys lo ro "inner" s).2 = introspectOps) := by
  have hmerge : merge left right onKeys lo ro "inner" s =
      (if (lo.isSome || ro.isSome) && onKeys.isSome then
        (.error (.valueError "Cannot specify left_on/right_on with on"), introspectOps)
      else if lo.isSome || ro.isSome then
        match lo, ro with
        | some a, some b =>
          if a.length ≠ b.length then
            (.error (.valueError "left_on and right_on must have the same number of items"),
             introspectOps)
          else mergeChecked left right a b s
        | _, _ => (.error (.valueError "Must specify both left_on and right_on"), introspectOps)
      else
        mergeChecked left right
          (match onKeys with
            | none => listInter (nameSet left) (nameSet right)
            | some [] => listInter (nameSet left) (nameSet right)
            | some l => l)
          (match onKeys with
            | none => listInter (nameSet left) (nameSet right)
            | some [] => listInter (nameSet left) (nameSet right)
            | some l => l) s) := by
    simp [merge]
  rw [hmerge]
  cases hE1 : (lo.isSome || ro.isSome) && onKeys.isSome with
  | true =>
    simp only [hE1, if_true]
    refine ⟨?_, ?_⟩
    · simp [badKeySpec, hE1, isInvalidArgumentResult]
    · simp
  | false =>
    simp only [hE1, Bool.false_eq_true, if_false]
    cases lo with
    | some a =>
      have hE1q : onKeys.isSome = false := by simpa using hE1
      cases ro with
      | some b =>
        simp only [Option.isSome_some, Bool.or_self, if_true]
        by_cases hab : a.length ≠ b.length
        · rw [if_pos hab]
          refine ⟨?_, ?_⟩
          · simp [badKeySpec, hE1q, hab, isInvalidArgumentResult]
          · simp
        · rw [if_neg hab]
          refine ⟨?_, fun h2 => mergeChecked_invalid_trace left right a b s h2⟩
          rw [mergeChecked_invalid_iff]
          simp [badKeySpec, hE1q, hab, resolvedKeys]
      | none =>
        simp only [Option.isSome_some, Option.isSome_none, Bool.or_false, if_true]
        refine ⟨?_, ?_⟩
        · simp [badKeySpec, isInvalidArgumentResult]
        · simp
    | none =>
      cases ro with
      | some b =>
        simp only [Option.isSome_none, Option.isSome_some, Bool.false_or, if_true]
        refine ⟨?_, ?_⟩
        · simp [badKeySpec, isInvalidArgumentResult]
        · simp
      | none =>
        simp only [Option.isSome_none, Bool.or_self, Bool.false_eq_true, if_false]
        cases onKeys with
        | none =>
          refine ⟨?_, fun h2 => mergeChecked_invalid_trace left right _ _ s h2⟩
          rw [mergeChecked_invalid_iff]
          simp [badKeySpec, resolvedKeys]
        | some l =>
          cases l with
          | nil =>
            refine ⟨?_, fun h2 => mergeChecked_invalid_trace left right _ _ s h2⟩
            rw [mergeChecked_invalid_iff]
            simp [badKeySpec, resolvedKeys]
          | cons x xs =>
            refine ⟨?_, fun h2 => mergeChecked_invalid_trace left right _ _ s h2⟩
            rw [mergeChecked_invalid_iff]
            simp [badKeySpec, resolvedKeys]

/-- Witness for C4 at a concrete conflicting specification (`on` together
with `left_on`). -/
theorem merge_invalid_argument_iff_witness :
    badKeySpec ⟨["i"], [("id", "int64")]⟩ ⟨["j"], [("id", "int64")]⟩
        (some ["id"]) (some ["id"]) none = true ∧
    isInvalidArgumentResult (merge ⟨["i"], [("id", "int64")]⟩ ⟨["j"], [("id", "int64")]⟩
        (some ["id"]) (some ["id"]) none "inner" ("_x", "_y")) = true :=
  ⟨by decide,
   (merge_invalid_argument_iff ⟨["i"], [("id", "int64")]⟩ ⟨["j"], [("id", "int64")]⟩
     (some ["id"]) (some ["id"]) none ("_x", "_y")).1.mpr (by decide)⟩

/-- C10: `on = []` (falsy in Python, like `on = None`) makes `merge` fall
back to the default key set; the call behaves identically to omitting `on`
entirely. -/
theorem merge_on_empty_list_eq_none (left right : Arr) (how : String)
    (s : String × String) :
    merge left right (some []) none none how s = merge left right none none none how s := rfl

/-- C3 (amended): for `how ≠ 'inner'`, `merge` fails with the
Unsupported-Operation error; the four `att_names`/`dim_names` schema reads
of lines 171-172 precede the raise, and no other collaborator operation is
issued. -/
theorem merge_non_inner_after_introspection (left right : Arr)
    (onKeys lo ro : Option (List String)) (how : String) (s : String × String)
    (h : how ≠ "inner") :
    merge left right onKeys lo ro how s =
      (.error (.notImplementedError "Only inner joins are supported for now."),
       introspectOps) := by
  simp [merge, h]

/-- Witness for the amended C3 at `how = 'outer'`. -/
theorem merge_non_inner_after_introspection_witness :
    ("outer" : String) ≠ "inner" ∧
    merge ⟨["i"], []⟩ ⟨["j"], []⟩ none none none "outer" ("_x", "_y") =
      (.error (.notImplementedError "Only inner joins are supported for now."),
       introspectOps) :=
  ⟨by decide,
   merge_non_inner_after_introspection ⟨["i"], []⟩ ⟨["j"], []⟩ none none none "outer"
     ("_x", "_y") (by decide)⟩

/-- Counterexample to C3 as stated: at `how = 'outer'` the raise does
happen, but the collaborator trace at the raise is the nonempty list of
the four `att_names`/`dim_names` introspection reads — the error is not
raised "without invoking any collaborator operation". -/
theorem merge_non_inner_counterexample :
    merge ⟨["i"], [("v", "double")]⟩ ⟨["j"], [("w", "double")]⟩ none none none "outer"
        ("_x", "_y") =
      (.error (.notImplementedError "Only inner joins are supported for now."),
       [MOp.readAttNames true, MOp.readDimNames true,
        MOp.readAttNames false, MOp.readDimNames false]) ∧
    ([MOp.readAttNames true, MOp.readDimNames true,
      MOp.readAttNames false, MOp.readDimNames false] : List MOp) ≠ [] := by
  refine ⟨rfl, by decide⟩

/-- C2 (amended): with an empty default key set (no `on`, `left_on`,
`right_on`, and disjoint combined name sets) `merge` does not fail: the
empty key list passes every validation check and the pipeline runs,
degenerating into a pure cross join. -/
theorem merge_empty_default_keys_accepted (left right : Arr) (s : String × String)
    (h : listInter (nameSet left) (nameSet right) = []) :
    (merge left right none none none "inner" s).1 =
      .ok (mergePipeline left right [] [] s) := by
  have e : merge left right none none none "inner" s =
      mergeChecked left right (listInter (nameSet left) (nameSet right))
        (listInter (nameSet left) (nameSet right)) s := by
    simp [merge]
  rw [e, h]
  unfold mergeChecked
  simp

/-- Witness for the amended C2 on concrete disjoint schemas. -/
theorem merge_empty_default_keys_accepted_witness :
    listInter (nameSet ⟨["i2"], [("v2", "double")]⟩) (nameSet ⟨["j2"], [("w2", "double")]⟩)
        = [] ∧
    (merge ⟨["i2"], [("v2", "double")]⟩ ⟨["j2"], [("w2", "double")]⟩ none none none "inner"
        ("_a", "_b")).1 =
      .ok (mergePipeline ⟨["i2"], [("v2", "double")]⟩ ⟨["j2"], [("w2", "double")]⟩ [] []
        ("_a", "_b")) :=
  ⟨by decide,
   merge_empty_default_keys_accepted ⟨["i2"], [("v2", "double")]⟩ ⟨["j2"], [("w2", "double")]⟩
     ("_a", "_b") (by decide)⟩

/-- Counterexample to C2 as stated: on two schemas sharing no names, with
`on`, `left_on`, `right_on` all unsupplied, `merge` does not raise
Invalid-Argument — it returns a successful (pure cross join) result. -/
theorem merge_disjoint_names_no_invalid_argument :
    (merge ⟨["i"], [("v", "double")]⟩ ⟨["j"], [("w", "double")]⟩ none none none "inner"
        ("_x", "_y")).1 =
      .ok ⟨["_row"], [("i", "int64"), ("j", "int64"), ("v", "double"), ("w", "double")]⟩ := rfl

/-! ## The suffix-cleanup stage, characterized -/

theorem renameIn_cons (p : String × String) (ps : List (String × String)) (n : String) :
    renameIn (p :: ps) n = if p.1 == n then p.2 else renameIn ps n := by
  unfold renameIn
  rw [List.find?_cons]
  cases h : (p.1 == n) <;> simp [h]

theorem renameIn_filterMap_neg (c : String → Bool) (f : String → String)
    (ns : List String) (n : String) (hc : c n = false) :
    renameIn (ns.filterMap (fun m => if c m then some (m, f m) else none)) n = n := by
  induction ns with
  | nil => rfl
  | cons m rest ih =>
    by_cases hcm : c m
    · have hmn : (m == n) = false := by
        rcases eq_or_ne m n with rfl | hne
        · rw [hcm] at hc; cases hc
        · simpa using hne
      rw [List.filterMap_cons, if_pos hcm, renameIn_cons]
      simpa [hmn] using ih
    · rw [List.filterMap_cons, if_neg hcm]
      exact ih

theorem renameIn_filterMap_cond (c : String → Bool) (f : String → String)
    (ns : List String) (n : String) (hn : n ∈ ns) :
    renameIn (ns.filterMap (fun m => if c m then some (m, f m) else none)) n =
      if c n then f n else n := by
  induction ns with
  | nil => cases hn
  | cons m rest ih =>
    by_cases hcn : c n
    · rw [if_pos hcn]
      rcases List.mem_cons.mp hn with rfl | hmem
      · rw [List.filterMap_cons, if_pos hcn, renameIn_cons]
        simp
      · by_cases hcm : c m
        · rw [List.filterMap_cons, if_pos hcm, renameIn_cons]
          by_cases hmn : m = n
          · subst hmn; simp
          · have : (m == n) = false := by simpa using hmn
            rw [this]
            simpa [hcn] using ih hmem
        · rw [List.filterMap_cons, if_neg hcm]
          simpa [hcn] using ih hmem
    · rw [if_neg hcn]
      exact renameIn_filterMap_neg c f (m :: rest) n (by simpa using hcn)

theorem renameIn_dropSuffixRenames (a : Arr) (s : String × String) (n : String)
    (hn : n ∈ attNames a) :
    renameIn (dropSuffixRenames a s) n =
      if cleanupHits a s n then pyReplace n s.1 "" else n :=
  renameIn_filterMap_cond (cleanupHits a s) (fun m => pyReplace m s.1 "") (attNames a) n hn

theorem attNames_drop_suffixes (a : Arr) (s : String × String) :
    attNames (drop_suffixes a s) =
      (attNames a).map (fun n => if cleanupHits a s n then pyReplace n s.1 "" else n) := by
  rw [drop_suffixes, attNames_attribute_rename]
  apply List.map_congr_left
  intro n hn
  exact renameIn_dropSuffixRenames a s n hn

/-! ## Claim theorems for the suffix cleanup -/

/-- C1 (amended): the final cleanup is an all-occurrence replacement, not an
end-of-name strip: every post-projection attribute name is renamed, with
every occurrence of the left suffix removed, exactly when it ends in the
left suffix and the name with every occurrence of the left suffix replaced
by the right suffix is absent from the post-projection attributes; all
other names are unchanged.  For a name with a single, terminal occurrence
of the left suffix this coincides with the claimed end-strip, but not in
general. -/
theorem merge_suffix_cleanup_replaces_all (left right : Arr) (lo ro : List String)
    (s : String × String) :
    attNames (mergePipeline left right lo ro s) =
      (attNames (mergeProjected left right lo ro s)).map
        (fun n => if cleanupHits (mergeProjected left right lo ro s) s n
                  then pyReplace n s.1 "" else n) :=
  attNames_drop_suffixes (mergeProjected left right lo ro s) s

/-- Counterexample to C1 as stated: both sides carry an attribute `a_x`
(besides the join key `id`), so the projected result carries `a_x_x` and
its right-suffixed counterpart `a_x_y`.  The claim demands `a_x_x` stay
unchanged, since its counterpart is present in the result; but the code
tests `'a_x_x'.replace('_x', '_y') = 'a_y_y'` (absent) and renames `a_x_x`
to `'a_x_x'.replace('_x', '') = 'a'`: `a_x_x` disappears from the result,
and is not merely end-stripped to `a_x` either. -/
theorem merge_suffix_cleanup_counterexample :
    "a_x_x" ∈ attNames (mergeProjected ⟨["i"], [("id", "int64"), ("a_x", "int64")]⟩
        ⟨["j"], [("id", "int64"), ("a_x", "double")]⟩ ["id"] ["id"] ("_x", "_y")) ∧
    "a_x_y" ∈ attNames (mergeProjected ⟨["i"], [("id", "int64"), ("a_x", "int64")]⟩
        ⟨["j"], [("id", "int64"), ("a_x", "double")]⟩ ["id"] ["id"] ("_x", "_y")) ∧
    (merge ⟨["i"], [("id", "int64"), ("a_x", "int64")]⟩
        ⟨["j"], [("id", "int64"), ("a_x", "double")]⟩
        (some ["id"]) none none "inner" ("_x", "_y")).1 =
      .ok ⟨["_row"], [("i", "int64"), ("id", "int64"), ("j", "int64"),
                      ("a", "int64"), ("a_x_y", "double")]⟩ ∧
    "a_x_x" ∉ attNames (Arr.mk ["_row"] [("i", "int64"), ("id", "int64"), ("j", "int64"),
                      ("a", "int64"), ("a_x_y", "double")]) ∧
    "a_x" ∉ attNames (Arr.mk ["_row"] [("i", "int64"), ("id", "int64"), ("j", "int64"),
                      ("a", "int64"), ("a_x_y", "double")]) :=
  ⟨by decide, by decide, by rfl, by decide, by decide⟩

/-! ## Claim theorems for the result shape of `merge` -/

def mergeKeepOf (left right : Arr) (lo ro : List String) (s : String × String) : List String :=
  mergeKeep (_apply_suffix left right lo ro s).1 (_apply_suffix left right lo ro s).2.1
    (_apply_suffix left right lo ro s).2.2.2

theorem attNames_project (a : Arr) (names : List String) :
    attNames (project a names) = (attNames a).filter (fun n => decide (n ∈ names)) := by
  simp only [attNames, project, List.filter_map, Function.comp]
  rfl

theorem attNames_unpack (a : Arr) (idx : String) :
    attNames (unpack a idx) = a.dims ++ attNames a := by
  unfold attNames unpack
  rw [List.map_append, List.map_map]
  congr 1
  show a.dims.map (fun d => d) = a.dims
  exact List.map_id' a.dims

theorem attNames_cross_join (a b : Arr) (args : List String) :
    attNames (cross_join a b args) = attNames a ++ attNames b := by
  simp [attNames, cross_join]

theorem dims_cross_join (a b : Arr) (args : List String) :
    (cross_join a b args).dims =
      a.dims ++ b.dims.filter (fun d => decide (d ∉ rightsOf args)) := rfl

theorem rightsOf_interleave (xs ys : List String) (h : xs.length = ys.length) :
    rightsOf (interleave xs ys) = ys := by
  induction xs generalizing ys with
  | nil =>
    cases ys with
    | nil => rfl
    | cons y t => cases h
  | cons x xt ih =>
    cases ys with
    | nil => cases h
    | cons y yt =>
      have h2 : xt.length = yt.length := by simpa using h
      have hi : interleave (x :: xt) (y :: yt) = x :: y :: interleave xt yt := by
        simp [interleave]
      rw [hi]
      show y :: rightsOf (interleave xt yt) = y :: yt
      rw [ih yt h2]

theorem apply_suffix_keys_len (left right : Arr) (lo ro : List String)
    (s : String × String) :
    (_apply_suffix left right lo ro s).2.2.1.length = lo.length ∧
    (_apply_suffix left right lo ro s).2.2.2.length = ro.length := by
  simp [_apply_suffix]

theorem mem_mergeKeep {l2 r2 : Arr} {ro2 : List String} {n : String} :
    n ∈ mergeKeep l2 r2 ro2 ↔
      (n ∈ nameSet l2 ∨ n ∈ nameSet r2) ∧ n ∉ ro2 := by
  simp [mergeKeep, List.mem_filter, List.mem_dedup, List.mem_append]

theorem mergeProjected_attNames_iff (left right : Arr) (lo ro : List String)
    (s : String × String) (hlen : lo.length = ro.length) (n : String) :
    n ∈ attNames (mergeProjected left right lo ro s) ↔
      n ∈ mergeKeepOf left right lo ro s := by
  rcases e : _apply_suffix left right lo ro s with ⟨l2, r2, lo2, ro2⟩
  have hkl := apply_suffix_keys_len left right lo ro s
  rw [e] at hkl
  have hlen2 : lo2.length = ro2.length := by
    have h1 : lo2.length = lo.length := hkl.1
    have h2 : ro2.length = ro.length := hkl.2
    rw [h1, h2, hlen]
  have hkeep : mergeKeepOf left right lo ro s = mergeKeep l2 r2 ro2 := by
    simp [mergeKeepOf, e]
  have hm : mergeProjected left right lo ro s =
      project (unpack
        (cross_join (_prepare_join_schema l2 r2 lo2 ro2).1
          (_prepare_join_schema l2 r2 lo2 ro2).2.1
          (interleave (_prepare_join_schema l2 r2 lo2 ro2).2.2.1
            (_prepare_join_schema l2 r2 lo2 ro2).2.2.2))
        (_new_attribute_label "_row"
          (cross_join (_prepare_join_schema l2 r2 lo2 ro2).1
            (_prepare_join_schema l2 r2 lo2 ro2).2.1
            (interleave (_prepare_join_schema l2 r2 lo2 ro2).2.2.1
              (_prepare_join_schema l2 r2 lo2 ro2).2.2.2))))
        (mergeKeep l2 r2 ro2) := by
    simp [mergeProjected, e]
  rw [hkeep, hm, prepare_join_schema_eq l2 r2 lo2 ro2 hlen2]
  have hchain := prepLoop_keys_len l2.atts l2 r2 (lo2.zip ro2)
  rw [attNames_project, List.mem_filter]
  constructor
  · rintro ⟨-, hdec⟩
    exact of_decide_eq_true hdec
  · intro hk
    refine ⟨?_, decide_eq_true hk⟩
    rw [attNames_unpack, attNames_cross_join, dims_cross_join]
    rw [rightsOf_interleave _ _ (by rw [hchain.1, hchain.2])]
    rcases mem_mergeKeep.mp hk with ⟨hlr, hnro2⟩
    rcases hlr with hl2 | hr2
    · have h3 : n ∈ nameSet (to_dimensions (prepLoop l2.atts l2 r2 (lo2.zip ro2)).1
          (prepLoop l2.atts l2 r2 (lo2.zip ro2)).2.2.1) :=
        nameSet_to_dimensions.mpr (prepLoop_nameSet_mono_left l2.atts l2 r2 (lo2.zip ro2) hl2)
      rcases mem_nameSet.mp h3 with ha | hd
      · simp [List.mem_append, ha]
      · simp [List.mem_append, hd]
    · have h3 : n ∈ nameSet (to_dimensions (prepLoop l2.atts l2 r2 (lo2.zip ro2)).2.1
          (prepLoop l2.atts l2 r2 (lo2.zip ro2)).2.2.2) :=
        nameSet_to_dimensions.mpr (prepLoop_nameSet_mono_right l2.atts l2 r2 (lo2.zip ro2) hr2)
      rcases mem_nameSet.mp h3 with ha | hd
      · simp [List.mem_append, ha]
      · have hnr : n ∉ (prepLoop l2.atts l2 r2 (lo2.zip ro2)).2.2.2 := by
          intro hmem
          rcases prepLoop_right_keys_src l2.atts l2 r2 (lo2.zip ro2) n hmem with hsrc | hnot
          · rcases List.mem_map.mp hsrc with ⟨p, hp, rfl⟩
            obtain ⟨a, b⟩ := p
            exact hnro2 (List.of_mem_zip hp).2
          · exact hnot hr2
        have : n ∈ List.filter (fun d => decide (d ∉ (prepLoop l2.atts l2 r2 (lo2.zip ro2)).2.2.2))
            (to_dimensions (prepLoop l2.atts l2 r2 (lo2.zip ro2)).2.1
              (prepLoop l2.atts l2 r2 (lo2.zip ro2)).2.2.2).dims :=
          List.mem_filter.mpr ⟨hd, decide_eq_true hnr⟩
        simp only [List.mem_append]
        left
        right
        exact this

/-- C8 (amended): for equal-length key lists the returned handle has exactly
one dimension (the dense row index); the attribute name set of the
post-projection result equals keep; and the final attribute names are the
image of the post-projection names under the suffix cleanup. -/
theorem merge_result_shape (left right : Arr) (lo ro : List String) (s : String × String)
    (hlen : lo.length = ro.length) :
    (mergePipeline left right lo ro s).dims.length = 1 ∧
    (∀ n, n ∈ attNames (mergeProjected left right lo ro s) ↔
      n ∈ mergeKeepOf left right lo ro s) ∧
    attNames (mergePipeline left right lo ro s) =
      (attNames (mergeProjected left right lo ro s)).map
        (fun n => if cleanupHits (mergeProjected left right lo ro s) s n
                  then pyReplace n s.1 "" else n) := by
  refine ⟨?_, fun n => mergeProjected_attNames_iff left right lo ro s hlen n,
    attNames_drop_suffixes _ _⟩
  simp [mergePipeline, drop_suffixes, attribute_rename, mergeProjected, project, unpack]

/-- Witness for the amended C8 on a shared-key join. -/
theorem merge_result_shape_witness :
    (["id"] : List String).length = (["id"] : List String).length ∧
    (mergePipeline ⟨["i"], [("id", "int64"), ("v", "string")]⟩
        ⟨["j"], [("id", "int64"), ("w", "string")]⟩ ["id"] ["id"] ("_x", "_y")).dims.length = 1 :=
  ⟨by decide,
   (merge_result_shape ⟨["i"], [("id", "int64"), ("v", "string")]⟩
     ⟨["j"], [("id", "int64"), ("w", "string")]⟩ ["id"] ["id"] ("_x", "_y") (by decide)).1⟩

/-- Counterexample to C8 as stated: joining on a shared key `id`
disambiguates it to `id_x`/`id_y`, so `keep` contains `id_x`; but the final
cleanup renames `id_x` back to `id`, so the returned attribute set is
`[i, id, j, v, w]` and does not equal `keep`. -/
theorem merge_attributes_not_keep_counterexample :
    "id_x" ∈ mergeKeepOf ⟨["i"], [("id", "int64"), ("v", "string")]⟩
        ⟨["j"], [("id", "int64"), ("w", "string")]⟩ ["id"] ["id"] ("_x", "_y") ∧
    (merge ⟨["i"], [("id", "int64"), ("v", "string")]⟩
        ⟨["j"], [("id", "int64"), ("w", "string")]⟩
        (some ["id"]) none none "inner" ("_x", "_y")).1 =
      .ok ⟨["_row"], [("i", "int64"), ("id", "int64"), ("j", "int64"),
                      ("v", "string"), ("w", "string")]⟩ ∧
    "id_x" ∉ attNames (Arr.mk ["_row"] [("i", "int64"), ("id", "int64"), ("j", "int64"),
                      ("v", "string"), ("w", "string")]) :=
  ⟨by decide, by rfl, by decide⟩

end SciDBPy
